import Mathlib

set_option maxHeartbeats 1000000

/-
  Verification of the module-graph engine of the next-client VS Code
  extension (src/extension.ts, current iteration).

  The mutable `moduleGraph : Map<string, ModuleInfo>` is embedded as a list
  of records in insertion order; every operation below is a direct
  translation of the corresponding function in the source.
-/

/-- The `ModuleInfo` interface (src/extension.ts lines 7-12). -/
structure ModuleInfo where
  filePath : String
  isClient : Bool
  hasUseClient : Bool
  imports : List String
deriving DecidableEq

/-- The `moduleGraph` map, keyed by `filePath`, in insertion order. -/
abbrev Graph := List ModuleInfo

/-- `moduleGraph.get(path)`: the entry whose key equals `path`. -/
def graphGet (g : Graph) (p : String) : Option ModuleInfo :=
  g.find? (fun m => m.filePath == p)

/-- `moduleGraph.set(m.filePath, m)`: replace the entry in place if the key
is present, otherwise append (JS `Map` insertion-order semantics). -/
def graphSet (g : Graph) (m : ModuleInfo) : Graph :=
  if g.any (fun x => x.filePath == m.filePath) then
    g.map (fun x => if x.filePath == m.filePath then m else x)
  else
    g ++ [m]

/-- The in-place mutation `importedModuleInfo.isClient = true` performed on
the map entry at path `p` (src/extension.ts line 227). -/
def setClientTrue (g : Graph) (p : String) : Graph :=
  g.map (fun m => if m.filePath == p then { m with isClient := true } else m)

/-- The inner `for (const importedModulePath of moduleInfo.imports)` loop of
`propagateClientStatus` (src/extension.ts lines 221-230): marks every
not-yet-client import that is present in the graph and returns the updated
graph together with the paths pushed onto the queue, in push order. -/
def processImports (g : Graph) : List String → Graph × List String
  | [] => (g, [])
  | importedModulePath :: rest =>
    match graphGet g importedModulePath with
    | none => processImports g rest
    | some importedModuleInfo =>
      if importedModuleInfo.isClient then
        processImports g rest
      else
        let res := processImports (setClientTrue g importedModulePath) rest
        (res.1, importedModulePath :: res.2)

/-- `const MAX_ITERATIONS = 10000` (src/extension.ts line 207). -/
def MAX_ITERATIONS : Nat := 10000

/-- The main `while (queue.length > 0 && count < MAX_ITERATIONS)` loop of
`propagateClientStatus` (src/extension.ts lines 209-231), with the remaining
iteration budget as fuel.  `queue.shift()` takes the front of the queue; a
falsy (empty-string) path and a path absent from the graph are skipped, both
still consuming one iteration. -/
def propLoop : Nat → Graph → List String → Graph
  | 0, g, _ => g
  | _ + 1, g, [] => g
  | fuel + 1, g, clientModulePath :: rest =>
    if clientModulePath == "" then
      propLoop fuel g rest
    else
      match graphGet g clientModulePath with
      | none => propLoop fuel g rest
      | some moduleInfo =>
        let res := processImports g moduleInfo.imports
        propLoop fuel res.1 (rest ++ res.2)

/-- The reset phase of `propagateClientStatus` (src/extension.ts line 198):
every module's `isClient` is reset to its explicit `hasUseClient` status. -/
def resetGraph (g : Graph) : Graph :=
  g.map (fun m => { m with isClient := m.hasUseClient })

/-- The initial queue of `propagateClientStatus` (src/extension.ts lines
196-202): the paths of the modules whose reset status is client, in map
order. -/
def initQueue (g : Graph) : List String :=
  ((resetGraph g).filter (fun m => m.isClient)).map (fun m => m.filePath)

/-- `propagateClientStatus` (src/extension.ts lines 192-238). -/
def propagateClientStatus (g : Graph) : Graph :=
  propLoop MAX_ITERATIONS (resetGraph g) (initQueue g)

/-- Instrumented version of the propagation loop returning the number of
executed iterations (the source's `count`) and the list of paths pushed onto
the queue during the loop, in push order. -/
def propLoopStats : Nat → Graph → List String → Nat × List String
  | 0, _, _ => (0, [])
  | _ + 1, _, [] => (0, [])
  | fuel + 1, g, clientModulePath :: rest =>
    if clientModulePath == "" then
      let s := propLoopStats fuel g rest
      (s.1 + 1, s.2)
    else
      match graphGet g clientModulePath with
      | none =>
        let s := propLoopStats fuel g rest
        (s.1 + 1, s.2)
      | some moduleInfo =>
        let res := processImports g moduleInfo.imports
        let s := propLoopStats fuel res.1 (rest ++ res.2)
        (s.1 + 1, res.2 ++ s.2)

/-- Iteration count and queue pushes of a full `propagateClientStatus` run. -/
def propagationStats (g : Graph) : Nat × List String :=
  propLoopStats MAX_ITERATIONS (resetGraph g) (initQueue g)

/-- The `onDidChangeTextDocument` debounce body (src/extension.ts lines
467-506), after `processFile` has produced `parsed`: on success the record
replaces the old one and propagation re-runs (`graphWasUpdated = true`); on
`null` nothing is mutated and no propagation happens. -/
def onDidChangeTextDocumentUpdate (g : Graph) (parsed : Option ModuleInfo) :
    Graph × Bool :=
  match parsed with
  | some moduleInfo => (propagateClientStatus (graphSet g moduleInfo), true)
  | none => (g, false)

/-- The `watcher.onDidDelete` handler (src/extension.ts lines 549-562): if
the path is a key of the graph, delete its entry, strip the path from every
remaining module's `imports` set, and re-run propagation. -/
def onDidDeleteHandler (g : Graph) (filePath : String) : Graph :=
  if g.any (fun m => m.filePath == filePath) then
    propagateClientStatus
      ((g.filter (fun m => !(m.filePath == filePath))).map (fun m =>
        { m with imports := m.imports.filter (fun i => !(i == filePath)) }))
  else g

/-- `imports.add(importPath)`: JS `Set` insertion (append if absent). -/
def setAdd (s : List String) (p : String) : List String :=
  if p ∈ s then s else s ++ [p]

/-- The import-collection phase of `processFile` (src/extension.ts lines
68-85): one `resolveImportPath` outcome per `ImportDeclaration`, successful
resolutions added to the `imports` set in order. -/
def collectImports (resolved : List (Option String)) : List String :=
  resolved.foldl (fun imports r =>
    match r with
    | some importPath => setAdd imports importPath
    | none => imports) []

/-- The `ModuleInfo` record returned by a successful `processFile`
(src/extension.ts lines 87-92): `isClient` starts equal to `hasUseClient`,
and `imports` holds the resolved import paths. -/
def processFileRecord (filePath : String) (hasUseClient : Bool)
    (resolved : List (Option String)) : ModuleInfo :=
  { filePath := filePath, isClient := hasUseClient,
    hasUseClient := hasUseClient, imports := collectImports resolved }

/-- The extension list of `resolveFileExtension` (src/extension.ts line 164). -/
def extensionList : List String := ["", ".js", ".jsx", ".ts", ".tsx"]

/-- `path.join(absolutePath, name)`, modelled as separator concatenation
(the arguments used by the source contain no `..` segments to normalize). -/
def pathJoin (a b : String) : String := a ++ "/" ++ b

/-- `resolveFileExtension` (src/extension.ts lines 161-190) over an abstract
file system given as the list of existing regular files: first the bare path
and each extension appended, then an index file of each extension inside the
path treated as a directory; the first hit wins. -/
def resolveFileExtension (files : List String) (absolutePath : String) :
    Option String :=
  match extensionList.find? (fun ext => files.contains (absolutePath ++ ext)) with
  | some ext => some (absolutePath ++ ext)
  | none =>
    match extensionList.find?
        (fun ext => files.contains (pathJoin absolutePath ("index" ++ ext))) with
    | some ext => some (pathJoin absolutePath ("index" ++ ext))
    | none => none

/-- A simplified source-level item of a module text: a leading string
literal statement, a comment, or any other code. -/
inductive SimpleStmt where
  | strLit (value : String)
  | comment (text : String)
  | code (text : String)
deriving DecidableEq

/-- Modelled from the spec: the directive list `ast.program.directives`
produced by the Babel parse in `processFile` (src/extension.ts lines 53-62).
Babel itself is an external library; per the spec, the directive prologue is
the run of leading string-literal statements of the program (comments are
not statements and do not end it), and nothing after the first real
statement is a directive. -/
def directivePrologue : List SimpleStmt → List String
  | [] => []
  | SimpleStmt.comment _ :: rest => directivePrologue rest
  | SimpleStmt.strLit s :: rest => s :: directivePrologue rest
  | SimpleStmt.code _ :: _ => []

/-- The directive check of `processFile` (src/extension.ts lines 60-62):
`ast.program.directives.some(d => d.value.value === "use client")`. -/
def hasUseClientOf (program : List SimpleStmt) : Bool :=
  (directivePrologue program).any (fun d => d == "use client")

/-- Source text of one simplified statement. -/
def renderStmt : SimpleStmt → String
  | SimpleStmt.strLit s => "\"" ++ s ++ "\";"
  | SimpleStmt.comment s => "// " ++ s
  | SimpleStmt.code s => s

/-- Source text of a simplified module. -/
def renderProgram (program : List SimpleStmt) : String :=
  String.intercalate "\n" (program.map renderStmt)

/-- Character-list prefix test. -/
def charsHavePre : List Char → List Char → Bool
  | [], _ => true
  | _ :: _, [] => false
  | c :: cs, d :: ds => c == d && charsHavePre cs ds

/-- Character-list substring test. -/
def charsHaveSub (needle : List Char) : List Char → Bool
  | [] => needle.isEmpty
  | d :: ds => charsHavePre needle (d :: ds) || charsHaveSub needle ds

/-- The superseded scan-iteration check
`fileContent.substring(0, 200).includes("use client")`
(src/extension.ts lines 609-614). -/
def naiveUseClientScan (content : String) : Bool :=
  charsHaveSub "use client".toList (content.toList.take 200)

/-- A directed forward import edge of the graph: `p`'s record imports `q`. -/
def importsEdge (g : Graph) (p q : String) : Prop :=
  ∃ m, graphGet g p = some m ∧ q ∈ m.imports

/-- Forward-import reachability. -/
def Reaches (g : Graph) : String → String → Prop :=
  Relation.ReflTransGen (importsEdge g)

/-- Shape of a record: everything except the derived `isClient` flag. -/
def stripInfo (m : ModuleInfo) : String × Bool × List String :=
  (m.filePath, m.hasUseClient, m.imports)

/-- The keys of the graph are pairwise distinct (a `Map` invariant). -/
def keysNodup (g : Graph) : Prop :=
  (g.map (fun m => m.filePath)).Nodup

/-- Number of not-yet-client entries; the potential of the worklist loop. -/
def unmarkedCount (g : Graph) : Nat :=
  g.countP (fun m => m.isClient == false)

/- Concrete graphs used by the scenario claims. -/

/-- C1 scenario: `client.tsx` carries the directive and imports `page.tsx`. -/
def exampleClientPage : Graph :=
  [{ filePath := "client.tsx", isClient := false, hasUseClient := true,
     imports := ["page.tsx"] },
   { filePath := "page.tsx", isClient := false, hasUseClient := false,
     imports := [] }]

/-- C4 scenario: `a.tsx` imports `b.tsx`; `b.tsx` carries the directive. -/
def exampleAB : Graph :=
  [{ filePath := "a.tsx", isClient := false, hasUseClient := false,
     imports := ["b.tsx"] },
   { filePath := "b.tsx", isClient := true, hasUseClient := true,
     imports := [] }]

/-- C4 scenario: the re-parsed `b.tsx` record after the directive was
removed from its text (fresh `processFile` result). -/
def moduleBNoDirective : ModuleInfo :=
  { filePath := "b.tsx", isClient := false, hasUseClient := false,
    imports := [] }

/-- An import cycle `c1 → c2 → c3 → c1` with an external directive-bearing
module `e.tsx` importing `c1.tsx`. -/
def exampleCycle : Graph :=
  [{ filePath := "e.tsx", isClient := false, hasUseClient := true,
     imports := ["c1.tsx"] },
   { filePath := "c1.tsx", isClient := false, hasUseClient := false,
     imports := ["c2.tsx"] },
   { filePath := "c2.tsx", isClient := false, hasUseClient := false,
     imports := ["c3.tsx"] },
   { filePath := "c3.tsx", isClient := false, hasUseClient := false,
     imports := ["c1.tsx"] }]

/-- Distinct nonempty module paths for arbitrarily long graphs. -/
def pathN (i : Nat) : String := String.mk (List.replicate (i + 1) 'a')

/-- Node `i` of an `n`-module import chain: only node 0 carries the
directive, and node `i` imports node `i + 1`. -/
def chainNode (n i : Nat) : ModuleInfo :=
  { filePath := pathN i, isClient := false, hasUseClient := decide (i = 0),
    imports := if i + 1 < n then [pathN (i + 1)] else [] }

/-- The `n`-module import chain graph. -/
def chainGraph (n : Nat) : Graph := (List.range' 0 n).map (chainNode n)

/-- The chain graph with nodes `0 .. k` marked client: the loop state after
`k` iterations of propagation on `chainGraph n`. -/
def markedChain (n k : Nat) : Graph :=
  (List.range' 0 n).map (fun i =>
    { filePath := pathN i, isClient := decide (i ≤ k),
      hasUseClient := decide (i = 0),
      imports := if i + 1 < n then [pathN (i + 1)] else [] })

/-- The record update `m.isClient = true`. -/
def setTrue (m : ModuleInfo) : ModuleInfo := { m with isClient := true }

/-- Rebuild a freshly-reset record from its shape. -/
def unstripReset (s : String × Bool × List String) : ModuleInfo :=
  { filePath := s.1, isClient := s.2.1, hasUseClient := s.2.1, imports := s.2.2 }

/- General helper lemmas. -/

/-- Membership in a JS-`Set` insertion. -/
theorem mem_setAdd (s : List String) (q p : String) :
    p ∈ setAdd s q ↔ p ∈ s ∨ p = q := by
  unfold setAdd
  split
  · rename_i h
    constructor
    · exact Or.inl
    · rintro (h1 | rfl)
      · exact h1
      · exact h
  · simp [List.mem_append]

/-- Membership in the accumulated import set of `processFile`. -/
theorem mem_collectImports_go (resolved : List (Option String))
    (acc : List String) (p : String) :
    p ∈ resolved.foldl (fun imports r =>
      match r with
      | some importPath => setAdd imports importPath
      | none => imports) acc ↔ p ∈ acc ∨ some p ∈ resolved := by
  induction resolved generalizing acc with
  | nil => simp
  | cons r rest ih =>
    cases r with
    | none =>
      rw [List.foldl_cons]
      simp only [ih]
      simp
    | some q =>
      rw [List.foldl_cons]
      simp only [ih, mem_setAdd]
      simp only [List.mem_cons, Option.some.injEq]
      tauto

/- Claim theorems. -/

/-- C1 (counterexample): the claim asserts that after propagation on the
scenario where directive-bearing `client.tsx` imports `page.tsx`, the
boundary-blocking name makes `isClient("page.tsx")` false; the code has no
boundary-blocking logic and marks `page.tsx` client. -/
theorem C1_counterexample :
    (graphGet (propagateClientStatus exampleClientPage) "page.tsx").map
      ModuleInfo.isClient = some true ∧
    (graphGet (propagateClientStatus exampleClientPage) "page.tsx").map
      ModuleInfo.isClient ≠ some false := by
  decide

/-- C1 (amended): `propagateClientStatus` has no boundary-blocking rule:
when `client.tsx` carries the directive and imports `page.tsx`, propagation
marks both modules client, `page.tsx` included. -/
theorem C1_amended :
    (graphGet (propagateClientStatus exampleClientPage) "client.tsx").map
      ModuleInfo.isClient = some true ∧
    (graphGet (propagateClientStatus exampleClientPage) "page.tsx").map
      ModuleInfo.isClient = some true := by
  decide

/-- C3: `processFile` raises the directive flag exactly when the literal
marker `"use client"` is one of the parsed program's leading directives, and
a marker that merely appears as a substring of the first 200 characters
(here: inside a leading comment) does not raise it, although the superseded
naive substring scan would. -/
theorem C3_directive_exact :
    (∀ program : List SimpleStmt,
        hasUseClientOf program = true ↔
          "use client" ∈ directivePrologue program) ∧
    hasUseClientOf
      [SimpleStmt.comment "use client", SimpleStmt.code "export const x = 1"]
      = false ∧
    naiveUseClientScan (renderProgram
      [SimpleStmt.comment "use client", SimpleStmt.code "export const x = 1"])
      = true ∧
    hasUseClientOf
      [SimpleStmt.strLit "use client", SimpleStmt.code "export const x = 1"]
      = true := by
  refine ⟨?_, by decide, by decide, by decide⟩
  intro program
  simp [hasUseClientOf, List.any_eq_true, beq_iff_eq]

/-- C4 (counterexample): the claim presumes `b.tsx`'s directive was a source
of taint for the importing module `a.tsx` (the spec scenario says the edit
flips `isClient("a.tsx")` from true to false); in the code taint flows from
a client module to the modules it imports, never to its importers, so after
the first propagation `a.tsx` is already untainted while `b.tsx` is
tainted. -/
theorem C4_counterexample :
    (graphGet (propagateClientStatus exampleAB) "a.tsx").map
      ModuleInfo.isClient = some false ∧
    (graphGet (propagateClientStatus exampleAB) "b.tsx").map
      ModuleInfo.isClient = some true := by
  decide

/-- C4 (amended): in the two-module graph where `a.tsx` imports `b.tsx` and
`b.tsx` carries the directive, `isClient("a.tsx")` is false after the edit
removing the directive is applied through the change handler (re-parse,
graph replacement, re-propagation) — and it was equally false before the
edit, because propagation taints a client module's imports, not its
importers.  No taint from an earlier run persists: each run resets every
`isClient` to `hasUseClient` first. -/
theorem C4_amended :
    moduleBNoDirective = processFileRecord "b.tsx" false [] ∧
    (onDidChangeTextDocumentUpdate (propagateClientStatus exampleAB)
      (some moduleBNoDirective)).2 = true ∧
    (graphGet (onDidChangeTextDocumentUpdate (propagateClientStatus exampleAB)
      (some moduleBNoDirective)).1 "a.tsx").map ModuleInfo.isClient
      = some false ∧
    (graphGet (propagateClientStatus exampleAB) "a.tsx").map
      ModuleInfo.isClient = some false := by
  decide

/-- C6: when `processFile` fails and returns null, the change handler leaves
the module graph untouched (every path still maps to its previous record),
reports `graphWasUpdated = false`, and runs no propagation. -/
theorem C6_parse_failure_no_mutation :
    ∀ (g : Graph) (p : String),
      (onDidChangeTextDocumentUpdate g none).1 = g ∧
      (onDidChangeTextDocumentUpdate g none).2 = false ∧
      graphGet (onDidChangeTextDocumentUpdate g none).1 p = graphGet g p := by
  intro g p
  exact ⟨rfl, rfl, rfl⟩

/-- C8 (counterexample): `processFile` has no self-import filter: a file
`/w/a.tsx` whose import specifier resolves (via extension resolution over a
file system containing only `/w/a.tsx`) to the importing file itself records
its own path in its `imports` set. -/
theorem C8_counterexample :
    resolveFileExtension ["/w/a.tsx"] "/w/a" = some "/w/a.tsx" ∧
    "/w/a.tsx" ∈ (processFileRecord "/w/a.tsx" false [some "/w/a.tsx"]).imports := by
  decide

/-- C8 (amended): the imports set of a parsed record contains exactly the
successfully resolved import paths — broken imports are omitted, duplicates
are collapsed, but an import resolving to the module's own path is kept as a
self-edge. -/
theorem C8_amended :
    ∀ (filePath : String) (hasUC : Bool) (resolved : List (Option String))
      (p : String),
      p ∈ (processFileRecord filePath hasUC resolved).imports ↔
        some p ∈ resolved := by
  intro filePath hasUC resolved p
  show p ∈ collectImports resolved ↔ some p ∈ resolved
  unfold collectImports
  rw [mem_collectImports_go]
  simp

/- Lookup lemmas for the association-list embedding of the module map. -/

/-- A found record's key is the searched path. -/
theorem graphGet_path {g : Graph} {p : String} {m : ModuleInfo}
    (h : graphGet g p = some m) : m.filePath = p := by
  have := List.find?_some h
  simpa using this

/-- A found record is an entry of the graph. -/
theorem graphGet_mem {g : Graph} {p : String} {m : ModuleInfo}
    (h : graphGet g p = some m) : m ∈ g :=
  List.mem_of_find?_eq_some h

/-- Lookup fails exactly when no entry has the key. -/
theorem graphGet_eq_none {g : Graph} {p : String} :
    graphGet g p = none ↔ ∀ m ∈ g, m.filePath ≠ p := by
  unfold graphGet
  rw [List.find?_eq_none]
  simp

/-- With pairwise distinct keys, every entry is found at its own key. -/
theorem graphGet_of_mem_nodup {g : Graph} (hnd : keysNodup g) {m : ModuleInfo}
    (hm : m ∈ g) : graphGet g m.filePath = some m := by
  induction g with
  | nil => cases hm
  | cons a t ih =>
    rcases List.mem_cons.mp hm with rfl | hmt
    · unfold graphGet
      rw [List.find?_cons]
      simp
    · have hnd' : keysNodup t := (List.nodup_cons.mp hnd).2
      have hne : a.filePath ≠ m.filePath := by
        intro hEq
        have : a.filePath ∈ t.map (fun m => m.filePath) :=
          hEq ▸ List.mem_map.mpr ⟨m, hmt, rfl⟩
        exact (List.nodup_cons.mp hnd).1 this
      unfold graphGet
      rw [List.find?_cons]
      have : (a.filePath == m.filePath) = false := beq_eq_false_iff_ne.mpr hne
      rw [this]
      exact ih hnd' hmt

/-- Lookup commutes with a key-preserving map over the entries. -/
theorem graphGet_map_path (g : Graph) (f : ModuleInfo → ModuleInfo)
    (hf : ∀ m, (f m).filePath = m.filePath) (p : String) :
    graphGet (g.map f) p = (graphGet g p).map f := by
  induction g with
  | nil => rfl
  | cons a t ih =>
    unfold graphGet at *
    rw [List.map_cons, List.find?_cons, List.find?_cons, hf a]
    cases h : (a.filePath == p)
    · exact ih
    · rfl

/-- Lookup after the in-place `isClient = true` mutation at path `q`. -/
theorem graphGet_setClientTrue (g : Graph) (q p : String) :
    graphGet (setClientTrue g q) p =
      (graphGet g p).map (fun m => if m.filePath == q then setTrue m else m) := by
  refine graphGet_map_path g _ ?_ p
  intro m
  by_cases h : m.filePath == q <;> simp [h, setTrue]

/-- The mutated path's record is found marked. -/
theorem graphGet_setClientTrue_self {g : Graph} {q : String} {m : ModuleInfo}
    (h : graphGet g q = some m) :
    graphGet (setClientTrue g q) q = some (setTrue m) := by
  rw [graphGet_setClientTrue, h]
  have := graphGet_path h
  simp [this]

/-- Lookups at other paths are unchanged by the mutation. -/
theorem graphGet_setClientTrue_other {g : Graph} {q p : String} (hpq : p ≠ q) :
    graphGet (setClientTrue g p) q = graphGet g q := by
  rw [graphGet_setClientTrue]
  cases h : graphGet g q
  · rfl
  · rename_i m
    have hm := graphGet_path h
    have hcond : ¬ ((m.filePath == p) = true) := by
      simp only [beq_iff_eq, hm]
      exact fun hEq => hpq hEq.symm
    simp [hcond]
    intro hEq
    rw [hm] at hEq
    exact absurd hEq.symm hpq

/-- Marking twice is marking once. -/
theorem setTrue_setTrue (m : ModuleInfo) : setTrue (setTrue m) = setTrue m := rfl

/-- Marking an already-client record changes nothing. -/
theorem setTrue_eq_self {m : ModuleInfo} (h : m.isClient = true) :
    setTrue m = m := by
  cases m
  simp_all [setTrue]

/-- Pointwise effect of the inner import loop on lookups: every path in the
processed import list ends up marked (if present at all), every other path
is untouched. -/
theorem processImports_get (imps : List String) (g : Graph) (p : String) :
    graphGet (processImports g imps).1 p =
      if p ∈ imps then (graphGet g p).map setTrue else graphGet g p := by
  induction imps generalizing g with
  | nil => simp [processImports]
  | cons imp rest ih =>
    by_cases hp : p = imp
    · subst hp
      cases hlook : graphGet g p with
      | none =>
        simp only [processImports, hlook, ih, List.mem_cons, true_or, if_pos]
        by_cases hpr : p ∈ rest <;> simp [hpr, hlook]
      | some mi =>
        cases hCl : mi.isClient
        · simp only [processImports, hlook, hCl, Bool.false_eq_true, if_neg,
            not_false_eq_true]
          rw [ih]
          by_cases hpr : p ∈ rest
          · rw [if_pos hpr, if_pos (List.mem_cons_self p rest),
              graphGet_setClientTrue_self hlook]
            simp [setTrue_setTrue]
          · rw [if_neg hpr, if_pos (List.mem_cons_self p rest),
              graphGet_setClientTrue_self hlook]
            simp
        · simp only [processImports, hlook, hCl, if_pos]
          rw [ih]
          by_cases hpr : p ∈ rest
          · simp [hpr, hlook]
          · simp [hpr, hlook, setTrue_eq_self hCl]
    · have hmem : (p ∈ imp :: rest) ↔ p ∈ rest := by
        simp [List.mem_cons, hp]
      cases hlook : graphGet g imp with
      | none =>
        simp only [processImports, hlook, ih, hmem]
      | some mi =>
        cases hCl : mi.isClient
        · simp only [processImports, hlook, hCl, Bool.false_eq_true, if_neg,
            not_false_eq_true]
          rw [ih, graphGet_setClientTrue_other (fun hEq => hp hEq.symm)]
          simp [List.mem_cons, hp]
        · simp only [processImports, hlook, hCl, if_pos, ih, hmem]

/- Shape preservation: propagation only flips `isClient` flags. -/

/-- Two records with equal shape agree on path, directive flag and imports. -/
theorem stripInfo_eq_iff {m m' : ModuleInfo} :
    stripInfo m = stripInfo m' ↔
      m.filePath = m'.filePath ∧ m.hasUseClient = m'.hasUseClient ∧
        m.imports = m'.imports := by
  simp [stripInfo, Prod.ext_iff]

/-- Marking does not change a record's shape. -/
theorem stripInfo_setTrue (m : ModuleInfo) : stripInfo (setTrue m) = stripInfo m :=
  rfl

/-- The in-place mutation preserves the shape of the whole graph. -/
theorem stripMap_setClientTrue (g : Graph) (q : String) :
    (setClientTrue g q).map stripInfo = g.map stripInfo := by
  unfold setClientTrue
  rw [List.map_map]
  refine List.map_congr_left ?_
  intro a _
  simp only [Function.comp_apply]
  split <;> rfl

/-- The inner import loop preserves the shape of the whole graph. -/
theorem stripMap_processImports (imps : List String) (g : Graph) :
    ((processImports g imps).1).map stripInfo = g.map stripInfo := by
  induction imps generalizing g with
  | nil => rfl
  | cons imp rest ih =>
    cases hlook : graphGet g imp with
    | none => simpa only [processImports, hlook] using ih g
    | some mi =>
      cases hCl : mi.isClient
      · simp only [processImports, hlook, hCl, Bool.false_eq_true, if_neg,
          not_false_eq_true]
        rw [ih (setClientTrue g imp), stripMap_setClientTrue]
      · simpa only [processImports, hlook, hCl, if_pos] using ih g

/-- The worklist loop preserves the shape of the whole graph. -/
theorem stripMap_propLoop (fuel : Nat) (g : Graph) (q : List String) :
    (propLoop fuel g q).map stripInfo = g.map stripInfo := by
  induction fuel generalizing g q with
  | zero => rfl
  | succ n ih =>
    cases q with
    | nil => rfl
    | cons p rest =>
      simp only [propLoop]
      by_cases hp : (p == "") = true
      · simp only [hp, if_pos]
        exact ih g rest
      · simp only [hp, Bool.false_eq_true, if_neg, not_false_eq_true]
        cases hlook : graphGet g p with
        | none => exact ih g rest
        | some mi =>
          rw [ih, stripMap_processImports]

/-- A full propagation run preserves the shape of the whole graph. -/
theorem stripMap_propagate (g : Graph) :
    (propagateClientStatus g).map stripInfo = g.map stripInfo := by
  unfold propagateClientStatus
  rw [stripMap_propLoop]
  unfold resetGraph
  rw [List.map_map]
  rfl

/-- Equal shapes force equal key lists. -/
theorem keys_eq_of_stripMap {g h : Graph}
    (hs : g.map stripInfo = h.map stripInfo) :
    g.map (fun m => m.filePath) = h.map (fun m => m.filePath) := by
  have : (g.map stripInfo).map Prod.fst = (h.map stripInfo).map Prod.fst := by
    rw [hs]
  rwa [List.map_map, List.map_map] at this

/-- Lookups in equally-shaped graphs find equally-shaped records. -/
theorem graphGet_congr_stripMap {g h : Graph}
    (hs : g.map stripInfo = h.map stripInfo) (p : String) :
    (graphGet g p).map stripInfo = (graphGet h p).map stripInfo := by
  induction g generalizing h with
  | nil =>
    have : h.map stripInfo = [] := hs.symm
    have hh : h = [] := List.map_eq_nil_iff.mp this
    subst hh
    rfl
  | cons a t ih =>
    cases h with
    | nil => simp at hs
    | cons b u =>
      simp only [List.map_cons, List.cons.injEq] at hs
      obtain ⟨hab, htu⟩ := hs
      have hpath : a.filePath = b.filePath := (stripInfo_eq_iff.mp hab).1
      unfold graphGet
      rw [List.find?_cons, List.find?_cons, hpath]
      cases hb : (b.filePath == p)
      · exact ih htu
      · simpa using hab

/-- A record of one graph has an equally-shaped record in an equally-shaped
graph. -/
theorem mem_of_stripMap {g h : Graph} {m : ModuleInfo}
    (hs : g.map stripInfo = h.map stripInfo) (hm : m ∈ g) :
    ∃ m', m' ∈ h ∧ stripInfo m' = stripInfo m := by
  have : stripInfo m ∈ h.map stripInfo := by
    rw [← hs]
    exact List.mem_map.mpr ⟨m, hm, rfl⟩
  obtain ⟨m', hm', hEq⟩ := List.mem_map.mp this
  exact ⟨m', hm', hEq⟩

/- Counting lemmas: the loop potential decreases. -/

/-- Marking never increases the number of unmarked entries. -/
theorem uc_setClientTrue_le (g : Graph) (q : String) :
    unmarkedCount (setClientTrue g q) ≤ unmarkedCount g := by
  induction g with
  | nil => exact Nat.le_refl 0
  | cons a t ih =>
    unfold unmarkedCount at *
    unfold setClientTrue at *
    rw [List.map_cons, List.countP_cons, List.countP_cons]
    have hle : (if ((if (a.filePath == q) = true then { a with isClient := true }
        else a).isClient == false) = true then 1 else 0) ≤
        (if (a.isClient == false) = true then 1 else 0) := by
      by_cases h : (a.filePath == q) = true <;> simp [h]
    omega

/-- Marking a present unmarked record strictly decreases the count. -/
theorem uc_setClientTrue_flip {g : Graph} {q : String} {m : ModuleInfo}
    (hlook : graphGet g q = some m) (hCl : m.isClient = false) :
    unmarkedCount (setClientTrue g q) + 1 ≤ unmarkedCount g := by
  induction g with
  | nil => cases hlook
  | cons a t ih =>
    unfold graphGet at hlook
    rw [List.find?_cons] at hlook
    cases ha : (a.filePath == q) with
    | true =>
      rw [ha] at hlook
      simp only [Option.some.injEq] at hlook
      subst hlook
      unfold unmarkedCount setClientTrue
      rw [List.map_cons, List.countP_cons, List.countP_cons]
      have h1 : (if ((if (a.filePath == q) = true then { a with isClient := true }
          else a).isClient == false) = true then 1 else 0) = 0 := by
        simp [ha]
      have h2 : (if ((a.isClient == false) : Bool) = true then 1 else 0) = 1 := by
        simp [hCl]
      rw [h1, h2]
      have := uc_setClientTrue_le t q
      unfold unmarkedCount setClientTrue at this
      omega
    | false =>
      rw [ha] at hlook
      have ihres := ih hlook
      unfold unmarkedCount setClientTrue at ihres ⊢
      rw [List.map_cons, List.countP_cons, List.countP_cons]
      have h1 : (if (a.filePath == q) = true then { a with isClient := true }
          else a) = a := by simp [ha]
      rw [h1]
      omega

/-- The inner loop pays one unmarked entry for every queue push. -/
theorem uc_processImports (imps : List String) (g : Graph) :
    unmarkedCount (processImports g imps).1 +
      ((processImports g imps).2).length ≤ unmarkedCount g := by
  induction imps generalizing g with
  | nil => simp [processImports]
  | cons imp rest ih =>
    cases hlook : graphGet g imp with
    | none => simpa only [processImports, hlook] using ih g
    | some mi =>
      cases hCl : mi.isClient
      · simp only [processImports, hlook, hCl, Bool.false_eq_true, if_neg,
          not_false_eq_true, List.length_cons]
        have h1 := ih (setClientTrue g imp)
        have h2 := uc_setClientTrue_flip hlook hCl
        omega
      · simpa only [processImports, hlook, hCl, if_pos] using ih g

/-- Every pushed path was present and unmarked before the inner loop ran. -/
theorem processImports_mem_2 (imps : List String) (g : Graph) (p : String)
    (hp : p ∈ (processImports g imps).2) :
    p ∈ imps ∧ ∃ m, graphGet g p = some m ∧ m.isClient = false := by
  induction imps generalizing g with
  | nil => simp [processImports] at hp
  | cons imp rest ih =>
    cases hlook : graphGet g imp with
    | none =>
      simp only [processImports, hlook] at hp
      obtain ⟨h1, h2⟩ := ih g hp
      exact ⟨List.mem_cons_of_mem _ h1, h2⟩
    | some mi =>
      cases hCl : mi.isClient
      · simp only [processImports, hlook, hCl, Bool.false_eq_true, if_neg,
          not_false_eq_true, List.mem_cons] at hp
        rcases hp with rfl | hp
        · exact ⟨List.mem_cons_self p rest, mi, hlook, hCl⟩
        · obtain ⟨h1, m, hm, hmCl⟩ := ih (setClientTrue g imp) hp
          by_cases hpi : p = imp
          · subst hpi
            rw [graphGet_setClientTrue_self hlook] at hm
            simp only [Option.some.injEq] at hm
            subst hm
            simp [setTrue] at hmCl
          · rw [graphGet_setClientTrue_other (fun hEq => hpi hEq.symm)] at hm
            exact ⟨List.mem_cons_of_mem _ h1, m, hm, hmCl⟩
      · simp only [processImports, hlook, hCl, if_pos] at hp
        obtain ⟨h1, h2⟩ := ih g hp
        exact ⟨List.mem_cons_of_mem _ h1, h2⟩

/-- Every processed import that is present ends up marked. -/
theorem processImports_marks (imps : List String) (g : Graph) (p : String)
    (hp : p ∈ imps) {m₂ : ModuleInfo}
    (h : graphGet (processImports g imps).1 p = some m₂) :
    m₂.isClient = true := by
  rw [processImports_get, if_pos hp] at h
  cases hg : graphGet g p with
  | none => rw [hg] at h; cases h
  | some m =>
    rw [hg] at h
    simp only [Option.map_some', Option.some.injEq] at h
    rw [← h]
    rfl

/-- Marked records stay marked through the inner loop. -/
theorem processImports_mono (imps : List String) (g : Graph) (p : String)
    {m : ModuleInfo} (h : graphGet g p = some m) (hCl : m.isClient = true) :
    ∃ m', graphGet (processImports g imps).1 p = some m' ∧
      m'.isClient = true := by
  rw [processImports_get]
  by_cases hp : p ∈ imps
  · rw [if_pos hp, h]
    exact ⟨setTrue m, rfl, rfl⟩
  · rw [if_neg hp, h]
    exact ⟨m, rfl, hCl⟩

/-- A present unmarked import is always pushed onto the queue. -/
theorem processImports_complete (imps : List String) (p : String)
    {m : ModuleInfo} (hCl : m.isClient = false) :
    ∀ g : Graph, p ∈ imps → graphGet g p = some m →
      p ∈ (processImports g imps).2 := by
  induction imps with
  | nil =>
    intro g hp _
    cases hp
  | cons imp rest ih =>
    intro g hp hlook
    cases hlook2 : graphGet g imp with
    | none =>
      simp only [processImports, hlook2]
      rcases List.mem_cons.mp hp with rfl | hp'
      · rw [hlook] at hlook2
        cases hlook2
      · exact ih g hp' hlook
    | some mi =>
      cases hCl2 : mi.isClient
      · simp only [processImports, hlook2, hCl2, Bool.false_eq_true, if_neg,
          not_false_eq_true]
        by_cases hpi : p = imp
        · subst hpi
          exact List.mem_cons_self _ _
        · rcases List.mem_cons.mp hp with rfl | hp'
          · exact absurd rfl hpi
          · refine List.mem_cons_of_mem _ (ih (setClientTrue g imp) hp' ?_)
            rw [graphGet_setClientTrue_other (fun hEq => hpi hEq.symm)]
            exact hlook
      · simp only [processImports, hlook2, hCl2, if_pos]
        rcases List.mem_cons.mp hp with rfl | hp'
        · rw [hlook] at hlook2
          simp only [Option.some.injEq] at hlook2
          rw [← hlook2] at hCl2
          rw [hCl] at hCl2
          cases hCl2
        · exact ih g hp' hlook

/-- Master invariant of the propagation worklist loop.  With distinct
nonempty keys and enough fuel, the loop (1) preserves shapes, (2) keeps
directive modules marked, (3) marks only modules reachable from a directive
module along forward import edges of the original graph `g0`, and (4) ends
with the marked set closed under present import edges. -/
theorem propLoop_master (g0 : Graph) (hnd : keysNodup g0)
    (hne : ∀ m ∈ g0, m.filePath ≠ "") :
    ∀ (fuel : Nat) (g : Graph) (q : List String),
      g.map stripInfo = g0.map stripInfo →
      (∀ m ∈ g, m.hasUseClient = true → m.isClient = true) →
      (∀ m ∈ g, m.isClient = true →
        ∃ s, s ∈ g0 ∧ s.hasUseClient = true ∧
          Reaches g0 s.filePath m.filePath) →
      (∀ p ∈ q, ∃ m, graphGet g p = some m ∧ m.isClient = true) →
      (∀ m ∈ g, m.isClient = true → m.filePath ∈ q ∨
        (∀ q' ∈ m.imports, ∀ m₂, graphGet g q' = some m₂ →
          m₂.isClient = true)) →
      q.length + unmarkedCount g ≤ fuel →
      ((propLoop fuel g q).map stripInfo = g0.map stripInfo ∧
       (∀ m ∈ propLoop fuel g q, m.hasUseClient = true → m.isClient = true) ∧
       (∀ m ∈ propLoop fuel g q, m.isClient = true →
         ∃ s, s ∈ g0 ∧ s.hasUseClient = true ∧
           Reaches g0 s.filePath m.filePath) ∧
       (∀ m ∈ propLoop fuel g q, m.isClient = true →
         ∀ q' ∈ m.imports, ∀ m₂, graphGet (propLoop fuel g q) q' = some m₂ →
           m₂.isClient = true)) := by
  intro fuel
  induction fuel with
  | zero =>
    intro g q hshape hB hC hD hE hfuel
    have hq : q = [] := by
      have : q.length = 0 := by omega
      exact List.length_eq_zero.mp this
    subst hq
    refine ⟨hshape, hB, hC, ?_⟩
    intro m hm hmCl q' hq' m₂ hm₂
    rcases hE m hm hmCl with h | h
    · cases h
    · exact h q' hq' m₂ hm₂
  | succ n ih =>
    intro g q hshape hB hC hD hE hfuel
    cases q with
    | nil =>
      refine ⟨hshape, hB, hC, ?_⟩
      intro m hm hmCl q' hq' m₂ hm₂
      rcases hE m hm hmCl with h | h
      · cases h
      · exact h q' hq' m₂ hm₂
    | cons p rest =>
      obtain ⟨mp, hmpLook, hmpCl⟩ := hD p (List.mem_cons_self p rest)
      have hmpMem : mp ∈ g := graphGet_mem hmpLook
      have hmpPath : mp.filePath = p := graphGet_path hmpLook
      obtain ⟨m0, hm0, hm0s⟩ := mem_of_stripMap hshape hmpMem
      have hpne : p ≠ "" := by
        rw [← hmpPath, ← (stripInfo_eq_iff.mp hm0s).1]
        exact hne m0 hm0
      have hbeq : (p == "") = false := beq_eq_false_iff_ne.mpr hpne
      have hndg : keysNodup g := by
        unfold keysNodup
        rw [keys_eq_of_stripMap hshape]
        exact hnd
      have hshape' : ((processImports g mp.imports).1).map stripInfo
          = g0.map stripInfo := by
        rw [stripMap_processImports]
        exact hshape
      have hndg' : keysNodup (processImports g mp.imports).1 := by
        unfold keysNodup
        rw [keys_eq_of_stripMap hshape']
        exact hnd
      -- the corresponding record of `mp` in `g0`, for edges
      have hc := graphGet_congr_stripMap hshape mp.filePath
      rw [hmpPath, hmpLook] at hc
      have hg0p : ∃ m0', graphGet g0 p = some m0' ∧
          stripInfo m0' = stripInfo mp := by
        cases hg0 : graphGet g0 p with
        | none => rw [hg0] at hc; cases hc
        | some m0' =>
          rw [hg0] at hc
          simp only [Option.map_some', Option.some.injEq] at hc
          exact ⟨m0', rfl, hc.symm⟩
      obtain ⟨m0', hm0'Look, hm0's⟩ := hg0p
      -- the new invariants after one iteration
      have hB' : ∀ m' ∈ (processImports g mp.imports).1,
          m'.hasUseClient = true → m'.isClient = true := by
        intro m' hm' hUC
        have hlook' := graphGet_of_mem_nodup hndg' hm'
        rw [processImports_get] at hlook'
        by_cases hmem : m'.filePath ∈ mp.imports
        · rw [if_pos hmem] at hlook'
          cases hgp : graphGet g m'.filePath with
          | none => rw [hgp] at hlook'; cases hlook'
          | some m =>
            rw [hgp] at hlook'
            simp only [Option.map_some', Option.some.injEq] at hlook'
            rw [← hlook']
            rfl
        · rw [if_neg hmem] at hlook'
          exact hB m' (graphGet_mem hlook') hUC
      have hC' : ∀ m' ∈ (processImports g mp.imports).1, m'.isClient = true →
          ∃ s, s ∈ g0 ∧ s.hasUseClient = true ∧
            Reaches g0 s.filePath m'.filePath := by
        intro m' hm' hmCl'
        have hlook' := graphGet_of_mem_nodup hndg' hm'
        rw [processImports_get] at hlook'
        by_cases hmem : m'.filePath ∈ mp.imports
        · rw [if_pos hmem] at hlook'
          cases hgp : graphGet g m'.filePath with
          | none => rw [hgp] at hlook'; cases hlook'
          | some m =>
            rw [hgp] at hlook'
            simp only [Option.map_some', Option.some.injEq] at hlook'
            cases hmCl2 : m.isClient
            · -- a newly marked module: extend the witness path by one edge
              obtain ⟨s, hs, hsU, hreach⟩ := hC mp hmpMem hmpCl
              refine ⟨s, hs, hsU, ?_⟩
              have hedge : importsEdge g0 mp.filePath m'.filePath := by
                refine ⟨m0', by rw [hmpPath]; exact hm0'Look, ?_⟩
                rw [(stripInfo_eq_iff.mp hm0's).2.2]
                exact hmem
              exact hreach.tail hedge
            · -- an already marked module keeps its witness
              have hm'm : m'.filePath = m.filePath := by
                rw [← hlook']
                rfl
              obtain ⟨s, hs, hsU, hreach⟩ := hC m (graphGet_mem hgp) hmCl2
              rw [hm'm]
              exact ⟨s, hs, hsU, hreach⟩
        · rw [if_neg hmem] at hlook'
          exact hC m' (graphGet_mem hlook') hmCl'
      have hD' : ∀ p' ∈ rest ++ (processImports g mp.imports).2,
          ∃ m, graphGet (processImports g mp.imports).1 p' = some m ∧
            m.isClient = true := by
        intro p' hp'
        rcases List.mem_append.mp hp' with hp' | hp'
        · obtain ⟨m, hmLook, hmCl2⟩ := hD p' (List.mem_cons_of_mem _ hp')
          exact processImports_mono _ g p' hmLook hmCl2
        · obtain ⟨hp'i, m, hmLook, _⟩ := processImports_mem_2 _ g p' hp'
          rw [processImports_get, if_pos hp'i, hmLook]
          exact ⟨setTrue m, rfl, rfl⟩
      have hE' : ∀ m' ∈ (processImports g mp.imports).1, m'.isClient = true →
          m'.filePath ∈ rest ++ (processImports g mp.imports).2 ∨
          (∀ q' ∈ m'.imports, ∀ m₂,
            graphGet (processImports g mp.imports).1 q' = some m₂ →
              m₂.isClient = true) := by
        intro m' hm' hmClm
        have hlook' := graphGet_of_mem_nodup hndg' hm'
        rw [processImports_get] at hlook'
        by_cases hmem : m'.filePath ∈ mp.imports
        · rw [if_pos hmem] at hlook'
          cases hgp : graphGet g m'.filePath with
          | none => rw [hgp] at hlook'; cases hlook'
          | some m =>
            rw [hgp] at hlook'
            simp only [Option.map_some', Option.some.injEq] at hlook'
            cases hmCl2 : m.isClient
            · -- newly marked: it was pushed, so it is in the new queue
              left
              refine List.mem_append.mpr (Or.inr ?_)
              have := processImports_complete mp.imports m'.filePath hmCl2 g
                hmem (by
                  have : m.filePath = m'.filePath := by rw [← hlook']; rfl
                  rw [← this] at hgp ⊢
                  exact hgp)
              exact this
            · -- was already marked: reuse the old closure case split
              have hmm' : m = m' := by
                rw [← hlook', setTrue_eq_self hmCl2]
              subst hmm'
              rcases hE m (graphGet_mem hgp) hmCl2 with hq | hcl
              · rcases List.mem_cons.mp hq with hq | hq
                · -- the dequeued module: all of its present imports are
                  -- marked by this very iteration
                  right
                  intro q' hq' m₂ hm₂
                  have hmmp : m = mp := by
                    have := hmpLook
                    rw [← hq] at this
                    rw [hgp] at this
                    simp only [Option.some.injEq] at this
                    exact this
                  subst hmmp
                  exact processImports_marks _ g q' hq' hm₂
                · exact Or.inl (List.mem_append.mpr (Or.inl hq))
              · right
                intro q' hq' m₂ hm₂
                rw [processImports_get] at hm₂
                by_cases hq'i : q' ∈ mp.imports
                · exact processImports_marks _ g q' hq'i (by
                    rw [processImports_get, if_pos hq'i]; rw [if_pos hq'i] at hm₂;
                    exact hm₂)
                · rw [if_neg hq'i] at hm₂
                  exact hcl q' hq' m₂ hm₂
        · rw [if_neg hmem] at hlook'
          have hmg : m' ∈ g := graphGet_mem hlook'
          rcases hE m' hmg hmClm with hq | hcl
          · rcases List.mem_cons.mp hq with hq | hq
            · right
              intro q' hq' m₂ hm₂
              have hmmp : m' = mp := by
                have := hmpLook
                rw [← hq] at this
                have h2 := graphGet_of_mem_nodup hndg hmg
                rw [h2] at this
                simp only [Option.some.injEq] at this
                exact this
              subst hmmp
              exact processImports_marks _ g q' hq' hm₂
            · exact Or.inl (List.mem_append.mpr (Or.inl hq))
          · right
            intro q' hq' m₂ hm₂
            rw [processImports_get] at hm₂
            by_cases hq'i : q' ∈ mp.imports
            · exact processImports_marks _ g q' hq'i (by
                rw [processImports_get, if_pos hq'i]; rw [if_pos hq'i] at hm₂;
                exact hm₂)
            · rw [if_neg hq'i] at hm₂
              exact hcl q' hq' m₂ hm₂
      have hfuel' : (rest ++ (processImports g mp.imports).2).length +
          unmarkedCount (processImports g mp.imports).1 ≤ n := by
        have h1 := uc_processImports mp.imports g
        rw [List.length_append]
        simp only [List.length_cons] at hfuel
        omega
      have hstep := ih (processImports g mp.imports).1
        (rest ++ (processImports g mp.imports).2) hshape' hB' hC' hD' hE' hfuel'
      simpa only [propLoop, hbeq, Bool.false_eq_true, if_neg,
        not_false_eq_true, hmpLook] using hstep

/- Initial state of a propagation run. -/

/-- The reset keeps every key. -/
theorem keys_resetGraph (g : Graph) :
    (resetGraph g).map (fun m => m.filePath) = g.map (fun m => m.filePath) := by
  unfold resetGraph
  rw [List.map_map]
  rfl

/-- The reset keeps keys pairwise distinct. -/
theorem keysNodup_resetGraph {g : Graph} (h : keysNodup g) :
    keysNodup (resetGraph g) := by
  unfold keysNodup
  rw [keys_resetGraph]
  exact h

/-- The reset keeps every shape. -/
theorem resetGraph_shape (g : Graph) :
    (resetGraph g).map stripInfo = g.map stripInfo := by
  unfold resetGraph
  rw [List.map_map]
  rfl

/-- After the reset, directive modules are marked. -/
theorem resetGraph_directive (g : Graph) :
    ∀ m ∈ resetGraph g, m.hasUseClient = true → m.isClient = true := by
  intro m hm
  obtain ⟨m0, _, rfl⟩ := List.mem_map.mp hm
  exact fun h => h

/-- After the reset, every marked module is itself a directive module. -/
theorem resetGraph_sound (g : Graph) :
    ∀ m ∈ resetGraph g, m.isClient = true →
      ∃ s, s ∈ g ∧ s.hasUseClient = true ∧
        Reaches g s.filePath m.filePath := by
  intro m hm hCl
  obtain ⟨m0, hm0, rfl⟩ := List.mem_map.mp hm
  exact ⟨m0, hm0, hCl, Relation.ReflTransGen.refl⟩

/-- Every initial queue entry is found marked. -/
theorem initQueue_marked (g : Graph) (hnd : keysNodup g) :
    ∀ p ∈ initQueue g,
      ∃ m, graphGet (resetGraph g) p = some m ∧ m.isClient = true := by
  intro p hp
  unfold initQueue at hp
  obtain ⟨mf, hmf, rfl⟩ := List.mem_map.mp hp
  have h2 := List.mem_filter.mp hmf
  exact ⟨mf, graphGet_of_mem_nodup (keysNodup_resetGraph hnd) h2.1, h2.2⟩

/-- Every marked module is initially enqueued. -/
theorem initQueue_complete (g : Graph) :
    ∀ m ∈ resetGraph g, m.isClient = true → m.filePath ∈ initQueue g := by
  intro m hm hCl
  unfold initQueue
  exact List.mem_map.mpr ⟨m, List.mem_filter.mpr ⟨hm, hCl⟩, rfl⟩

/-- Head contribution to the unmarked count. -/
theorem countP_unmarked_cons (a : ModuleInfo) (t : Graph) :
    List.countP (fun m => m.isClient == false) (a :: t) =
      List.countP (fun m => m.isClient == false) t +
        (if a.isClient = false then 1 else 0) := by
  rw [List.countP_cons]
  cases ha : a.isClient <;> simp [ha]

/-- Head contribution to the marked count. -/
theorem filter_marked_cons_length (a : ModuleInfo) (t : Graph) :
    (List.filter (fun m => m.isClient) (a :: t)).length =
      (List.filter (fun m => m.isClient) t).length +
        (if a.isClient = true then 1 else 0) := by
  rw [List.filter_cons]
  cases ha : a.isClient <;> simp [ha]

/-- Every entry is either marked or unmarked. -/
theorem marked_split (l : Graph) :
    (List.filter (fun m => m.isClient) l).length +
      List.countP (fun m => m.isClient == false) l = l.length := by
  induction l with
  | nil => rfl
  | cons a t ih =>
    rw [filter_marked_cons_length, countP_unmarked_cons, List.length_cons]
    cases ha : a.isClient
    · rw [if_neg (show ¬ ((false : Bool) = true) by decide), if_pos rfl]
      omega
    · rw [if_pos rfl, if_neg (show ¬ ((true : Bool) = false) by decide)]
      omega

/-- The initial potential of a propagation run is the number of modules. -/
theorem initQueue_length (g : Graph) :
    (initQueue g).length + unmarkedCount (resetGraph g) = g.length := by
  unfold initQueue unmarkedCount
  rw [List.length_map]
  have h := marked_split (resetGraph g)
  have h2 : (resetGraph g).length = g.length := by
    unfold resetGraph
    rw [List.length_map]
  omega

/-- C2 (amended): on a graph with pairwise distinct nonempty module paths
and at most `MAX_ITERATIONS` modules, a module's `isClient` flag after
`propagateClientStatus` is true exactly when the module carries the
directive or a directive-bearing module reaches it along forward import
edges. -/
theorem C2_amended :
    ∀ g : Graph, keysNodup g → (∀ m ∈ g, m.filePath ≠ "") →
      g.length ≤ MAX_ITERATIONS →
      ∀ m', m' ∈ propagateClientStatus g →
        (m'.isClient = true ↔
          m'.hasUseClient = true ∨
            ∃ s, s ∈ g ∧ s.hasUseClient = true ∧
              Reaches g s.filePath m'.filePath) := by
  intro g hnd hne hlen m' hm'
  have hm2 : m' ∈ propLoop MAX_ITERATIONS (resetGraph g) (initQueue g) := hm'
  have hfuel : (initQueue g).length + unmarkedCount (resetGraph g) ≤
      MAX_ITERATIONS := by
    rw [initQueue_length]
    exact hlen
  obtain ⟨hshape, hB, hC, hclosure⟩ :=
    propLoop_master g hnd hne MAX_ITERATIONS (resetGraph g) (initQueue g)
      (resetGraph_shape g) (resetGraph_directive g) (resetGraph_sound g)
      (initQueue_marked g hnd)
      (fun m hm hCl => Or.inl (initQueue_complete g m hm hCl))
      hfuel
  constructor
  · intro hCl
    exact Or.inr (hC m' hm2 hCl)
  · intro h
    have hndh : keysNodup (propLoop MAX_ITERATIONS (resetGraph g)
        (initQueue g)) := by
      unfold keysNodup
      rw [keys_eq_of_stripMap hshape]
      exact hnd
    rcases h with hUC | ⟨s, hs, hsU, hreach⟩
    · exact hB m' hm2 hUC
    · have key : ∀ x, Reaches g s.filePath x →
          ∀ mx, graphGet (propLoop MAX_ITERATIONS (resetGraph g)
            (initQueue g)) x = some mx → mx.isClient = true := by
        intro x hx
        induction hx with
        | refl =>
          intro mx hmx
          have hcor := graphGet_congr_stripMap hshape s.filePath
          rw [hmx, graphGet_of_mem_nodup hnd hs] at hcor
          simp only [Option.map_some', Option.some.injEq] at hcor
          refine hB mx (graphGet_mem hmx) ?_
          rw [(stripInfo_eq_iff.mp hcor).2.1]
          exact hsU
        | tail hr hedge ih2 =>
          rename_i b c
          intro mx hmx
          obtain ⟨mx0, hx0, hyimp⟩ := hedge
          have hcor := graphGet_congr_stripMap hshape b
          rw [hx0] at hcor
          cases hLb : graphGet (propLoop MAX_ITERATIONS (resetGraph g)
              (initQueue g)) b with
          | none =>
            rw [hLb] at hcor
            simp at hcor
          | some mxb =>
            rw [hLb] at hcor
            simp only [Option.map_some', Option.some.injEq] at hcor
            have hmarked := ih2 mxb hLb
            refine hclosure mxb (graphGet_mem hLb) hmarked c ?_ mx hmx
            rw [(stripInfo_eq_iff.mp hcor).2.2]
            exact hyimp
      exact key m'.filePath hreach m' (graphGet_of_mem_nodup hndh hm2)

/-- C2 (witness): applying the amended characterization to the cycle
scenario — the member `c2.tsx` of the cycle reports tainted exactly because
the external directive module reaches it through forward import edges. -/
theorem C2_amended_witness :
    ∃ s, s ∈ exampleCycle ∧ s.hasUseClient = true ∧
      Reaches exampleCycle s.filePath "c2.tsx" := by
  have hmem : ({ filePath := "c2.tsx", isClient := true,
                 hasUseClient := false,
                 imports := ["c3.tsx"] } : ModuleInfo) ∈
      propagateClientStatus exampleCycle := by decide
  have h := C2_amended exampleCycle (by unfold keysNodup; decide) (by decide)
    (by decide) _ hmem
  rcases h.mp rfl with hU | hR
  · exact absurd hU (by decide)
  · exact hR

/- Shape determines reset and queue: idempotence of propagation. -/

/-- Equally-shaped graphs reset to the same graph. -/
theorem resetGraph_eq_of_stripMap {g h : Graph}
    (hs : g.map stripInfo = h.map stripInfo) : resetGraph g = resetGraph h := by
  unfold resetGraph
  calc g.map (fun m => { m with isClient := m.hasUseClient })
      = (g.map stripInfo).map unstripReset := by rw [List.map_map]; rfl
    _ = (h.map stripInfo).map unstripReset := by rw [hs]
    _ = h.map (fun m => { m with isClient := m.hasUseClient }) := by
        rw [List.map_map]; rfl

/-- C10: `propagateClientStatus` is idempotent — a second run with no
intervening change to any module's `hasUseClient` flag or imports set
reproduces exactly the same graph, because each run starts by resetting
every `isClient` to `hasUseClient`. -/
theorem C10_idempotent :
    ∀ g : Graph,
      propagateClientStatus (propagateClientStatus g) =
        propagateClientStatus g := by
  intro g
  have hs := stripMap_propagate g
  show propLoop MAX_ITERATIONS (resetGraph (propagateClientStatus g))
    (initQueue (propagateClientStatus g)) = propagateClientStatus g
  have h1 : resetGraph (propagateClientStatus g) = resetGraph g :=
    resetGraph_eq_of_stripMap hs
  have h2 : initQueue (propagateClientStatus g) = initQueue g := by
    unfold initQueue
    rw [h1]
  rw [h1, h2]
  rfl

/- The deletion handler leaves no dangling reference. -/

/-- Propagation preserves lookup failures. -/
theorem prop_get_none {g : Graph} {p : String}
    (h : graphGet g p = none) :
    graphGet (propagateClientStatus g) p = none := by
  have hc := graphGet_congr_stripMap (stripMap_propagate g) p
  rw [h] at hc
  cases hx : graphGet (propagateClientStatus g) p
  · rfl
  · rw [hx] at hc
    simp at hc

/-- C7: after the deletion handler runs for a path present in the module
graph, that path is absent from the graph and no remaining module's imports
set contains it — inserting a module and then removing it leaves no edge
mentioning its path. -/
theorem C7_round_trip :
    ∀ (g : Graph) (p : String), (∃ m, m ∈ g ∧ m.filePath = p) →
      graphGet (onDidDeleteHandler g p) p = none ∧
      ∀ m ∈ onDidDeleteHandler g p, p ∉ m.imports := by
  intro g p hex
  have hany : (g.any (fun m => m.filePath == p)) = true := by
    rw [List.any_eq_true]
    obtain ⟨m, hm, hp⟩ := hex
    exact ⟨m, hm, by simp [hp]⟩
  unfold onDidDeleteHandler
  rw [if_pos hany]
  constructor
  · apply prop_get_none
    rw [graphGet_eq_none]
    intro m hm
    obtain ⟨m1, hm1, rfl⟩ := List.mem_map.mp hm
    have h2 := (List.mem_filter.mp hm1).2
    simp only [Bool.not_eq_eq_eq_not, Bool.not_true, beq_eq_false_iff_ne] at h2
    exact h2
  · intro m hm hpmem
    obtain ⟨m', hm', hs'⟩ := mem_of_stripMap (stripMap_propagate _) hm
    have himp : m.imports = m'.imports := ((stripInfo_eq_iff.mp hs').2.2).symm
    rw [himp] at hpmem
    obtain ⟨m1, _, rfl⟩ := List.mem_map.mp hm'
    have h2 := (List.mem_filter.mp hpmem).2
    simp at h2

/-- C7 (witness): deleting `b.tsx` from the two-module graph removes its
record and strips it from `a.tsx`'s imports. -/
theorem C7_round_trip_witness :
    graphGet (onDidDeleteHandler exampleAB "b.tsx") "b.tsx" = none ∧
    ∀ m ∈ onDidDeleteHandler exampleAB "b.tsx", "b.tsx" ∉ m.imports :=
  C7_round_trip exampleAB "b.tsx" (by decide)

/- Iteration accounting for the propagation loop. -/

/-- The loop never runs more iterations than its fuel. -/
theorem propLoopStats_le (fuel : Nat) (g : Graph) (q : List String) :
    (propLoopStats fuel g q).1 ≤ fuel := by
  induction fuel generalizing g q with
  | zero => exact Nat.le_refl 0
  | succ n ih =>
    cases q with
    | nil => exact Nat.zero_le _
    | cons p rest =>
      by_cases hp : (p == "") = true
      · simp only [propLoopStats, hp, if_pos]
        have := ih g rest
        omega
      · cases hlook : graphGet g p with
        | none =>
          simp only [propLoopStats, hp, Bool.false_eq_true, if_neg,
            not_false_eq_true, hlook]
          have := ih g rest
          omega
        | some mi =>
          simp only [propLoopStats, hp, Bool.false_eq_true, if_neg,
            not_false_eq_true, hlook]
          have := ih (processImports g mi.imports).1
            (rest ++ (processImports g mi.imports).2)
          omega

/-- The loop never runs more iterations than its initial potential: queue
length plus number of unmarked modules. -/
theorem propLoopStats_phi (fuel : Nat) (g : Graph) (q : List String) :
    (propLoopStats fuel g q).1 ≤ q.length + unmarkedCount g := by
  induction fuel generalizing g q with
  | zero => exact Nat.zero_le _
  | succ n ih =>
    cases q with
    | nil => exact Nat.zero_le _
    | cons p rest =>
      by_cases hp : (p == "") = true
      · simp only [propLoopStats, hp, if_pos, List.length_cons]
        have := ih g rest
        omega
      · cases hlook : graphGet g p with
        | none =>
          simp only [propLoopStats, hp, Bool.false_eq_true, if_neg,
            not_false_eq_true, hlook, List.length_cons]
          have := ih g rest
          omega
        | some mi =>
          simp only [propLoopStats, hp, Bool.false_eq_true, if_neg,
            not_false_eq_true, hlook, List.length_cons]
          have h1 := ih (processImports g mi.imports).1
            (rest ++ (processImports g mi.imports).2)
          have h2 := uc_processImports mi.imports g
          rw [List.length_append] at h1
          omega

/-- The inner loop keeps an already-marked path set marked, pushes only
fresh paths, and the pushed paths are themselves pairwise distinct. -/
theorem processImports_markedAll (imps : List String) :
    ∀ (g : Graph) (E : List String),
      (∀ p ∈ E, ∃ m, graphGet g p = some m ∧ m.isClient = true) →
      ((∀ p ∈ E ++ (processImports g imps).2,
          ∃ m, graphGet (processImports g imps).1 p = some m ∧
            m.isClient = true) ∧
        (E.Nodup → (E ++ (processImports g imps).2).Nodup)) := by
  induction imps with
  | nil =>
    intro g E hE
    constructor
    · intro p hp
      simp only [processImports, List.append_nil] at hp ⊢
      exact hE p hp
    · intro h
      simpa [processImports] using h
  | cons imp rest ih =>
    intro g E hE
    cases hlook : graphGet g imp with
    | none =>
      simp only [processImports, hlook]
      exact ih g E hE
    | some mi =>
      cases hCl : mi.isClient
      · simp only [processImports, hlook, hCl, Bool.false_eq_true, if_neg,
          not_false_eq_true]
        have hE' : ∀ p ∈ E ++ [imp],
            ∃ m, graphGet (setClientTrue g imp) p = some m ∧
              m.isClient = true := by
          intro p hp
          rcases List.mem_append.mp hp with hp | hp
          · obtain ⟨m, hm, hmCl⟩ := hE p hp
            by_cases hpi : p = imp
            · subst hpi
              exact ⟨setTrue m, graphGet_setClientTrue_self hm, rfl⟩
            · refine ⟨m, ?_, hmCl⟩
              rw [graphGet_setClientTrue_other (fun h2 => hpi h2.symm)]
              exact hm
          · simp only [List.mem_singleton] at hp
            subst hp
            exact ⟨setTrue mi, graphGet_setClientTrue_self hlook, rfl⟩
        have himpE : imp ∉ E := by
          intro hmemE
          obtain ⟨m, hm, hmCl⟩ := hE imp hmemE
          rw [hlook] at hm
          simp only [Option.some.injEq] at hm
          rw [← hm] at hmCl
          rw [hCl] at hmCl
          cases hmCl
        obtain ⟨ihA, ihB⟩ := ih (setClientTrue g imp) (E ++ [imp]) hE'
        constructor
        · intro p hp
          apply ihA
          rwa [List.append_assoc, List.singleton_append]
        · intro hnd
          have h1 : (E ++ [imp]).Nodup := by
            rw [List.nodup_append]
            refine ⟨hnd, List.nodup_singleton imp, ?_⟩
            intro a ha hb
            simp only [List.mem_singleton] at hb
            subst hb
            exact himpE ha
          have h2 := ihB h1
          rwa [List.append_assoc, List.singleton_append] at h2
      · simp only [processImports, hlook, hCl, if_pos]
        exact ih g E hE

/-- Every path is pushed onto the propagation queue at most once: the
already-enqueued set stays marked, and only unmarked paths are pushed. -/
theorem propLoopStats_enq_nodup :
    ∀ (fuel : Nat) (g : Graph) (q E : List String),
      (∀ p ∈ E, ∃ m, graphGet g p = some m ∧ m.isClient = true) → E.Nodup →
      (E ++ (propLoopStats fuel g q).2).Nodup := by
  intro fuel
  induction fuel with
  | zero =>
    intro g q E _ hnd
    simpa [propLoopStats] using hnd
  | succ n ih =>
    intro g q E hE hnd
    cases q with
    | nil => simpa [propLoopStats] using hnd
    | cons p rest =>
      by_cases hp : (p == "") = true
      · simp only [propLoopStats, hp, if_pos]
        exact ih g rest E hE hnd
      · simp only [propLoopStats, hp, Bool.false_eq_true, if_neg,
          not_false_eq_true]
        cases hlook : graphGet g p with
        | none => exact ih g rest E hE hnd
        | some mi =>
          obtain ⟨ihA, ihB⟩ := processImports_markedAll mi.imports g E hE
          have h := ih (processImports g mi.imports).1
            (rest ++ (processImports g mi.imports).2)
            (E ++ (processImports g mi.imports).2) ihA (ihB hnd)
          rwa [List.append_assoc] at h

/-- With distinct keys, the initial queue has no duplicates. -/
theorem initQueue_nodup (g : Graph) (hnd : keysNodup g) :
    (initQueue g).Nodup := by
  unfold initQueue
  have hsub : List.Sublist (((resetGraph g).filter (fun m => m.isClient)).map
      (fun m => m.filePath)) ((resetGraph g).map (fun m => m.filePath)) :=
    (List.filter_sublist _).map _
  exact (keysNodup_resetGraph hnd).sublist hsub

/-- C5: on every finite module graph with distinct keys,
`propagateClientStatus` executes at most `MAX_ITERATIONS` dequeue
iterations, in fact at most one per module of the graph, and no module path
is enqueued twice — once per directive module initially, and afterwards only
on a false-to-true flip of `isClient` — so cyclic imports cannot cause
re-processing. -/
theorem C5_iteration_bound :
    ∀ g : Graph, keysNodup g →
      (propagationStats g).1 ≤ MAX_ITERATIONS ∧
      (propagationStats g).1 ≤ g.length ∧
      (initQueue g ++ (propagationStats g).2).Nodup := by
  intro g hnd
  refine ⟨propLoopStats_le _ _ _, ?_, ?_⟩
  · have h1 := propLoopStats_phi MAX_ITERATIONS (resetGraph g) (initQueue g)
    have h2 := initQueue_length g
    unfold propagationStats
    omega
  · exact propLoopStats_enq_nodup MAX_ITERATIONS (resetGraph g) (initQueue g)
      (initQueue g) (initQueue_marked g hnd) (initQueue_nodup g hnd)

/-- C5 (witness): the bounds hold on the concrete cyclic workspace. -/
theorem C5_iteration_bound_witness :
    (propagationStats exampleCycle).1 ≤ MAX_ITERATIONS ∧
    (propagationStats exampleCycle).1 ≤ exampleCycle.length ∧
    (initQueue exampleCycle ++ (propagationStats exampleCycle).2).Nodup :=
  C5_iteration_bound exampleCycle (by unfold keysNodup; decide)

/- The 10002-module import chain: the iteration ceiling truncates
propagation. -/

/-- Chain paths are nonempty. -/
theorem pathN_ne_empty (i : Nat) : pathN i ≠ "" := by
  unfold pathN
  intro h
  have := congrArg String.data h
  simp at this

/-- Chain paths are pairwise distinct. -/
theorem pathN_inj {i j : Nat} (h : pathN i = pathN j) : i = j := by
  unfold pathN at h
  have := congrArg String.data h
  simp at this
  exact this

/-- The loop stops on an empty queue. -/
theorem propLoop_nil (fuel : Nat) (g : Graph) : propLoop fuel g [] = g := by
  cases fuel <;> rfl

/-- Lookup in a graph indexed by consecutive chain paths. -/
theorem graphGet_range'_map (f : Nat → ModuleInfo)
    (hf : ∀ i, (f i).filePath = pathN i) :
    ∀ (cnt s j : Nat), s ≤ j → j < s + cnt →
      graphGet ((List.range' s cnt).map f) (pathN j) = some (f j) := by
  intro cnt
  induction cnt with
  | zero =>
    intro s j h1 h2
    omega
  | succ c ih =>
    intro s j h1 h2
    rw [List.range'_succ, List.map_cons]
    unfold graphGet
    rw [List.find?_cons]
    by_cases hsj : s = j
    · subst hsj
      have hcond : ((f s).filePath == pathN s) = true := by
        rw [hf s]
        exact beq_self_eq_true _
      rw [hcond]
    · have hcond : ((f s).filePath == pathN j) = false := by
        rw [hf s]
        exact beq_eq_false_iff_ne.mpr (fun hEq => hsj (pathN_inj hEq))
      rw [hcond]
      exact ih (s + 1) j (by omega) (by omega)

/-- Resetting the chain marks exactly node 0. -/
theorem resetChain (n : Nat) : resetGraph (chainGraph n) = markedChain n 0 := by
  unfold resetGraph chainGraph markedChain
  rw [List.map_map]
  refine List.map_congr_left ?_
  intro i _
  simp only [Function.comp_apply]
  unfold chainNode
  simp only [ModuleInfo.mk.injEq, true_and, and_true]
  exact decide_eq_decide.mpr (by omega)

/-- The initial queue is computed from directive flags alone. -/
theorem initQueue_eq (g : Graph) :
    initQueue g =
      (g.filter (fun m => m.hasUseClient)).map (fun m => m.filePath) := by
  unfold initQueue resetGraph
  rw [List.filter_map, List.map_map]
  rfl

/-- On the chain, only node 0 is initially enqueued. -/
theorem initQueue_chain (n : Nat) (hn : 0 < n) :
    initQueue (chainGraph n) = [pathN 0] := by
  rw [initQueue_eq]
  unfold chainGraph
  rw [List.filter_map]
  obtain ⟨m, rfl⟩ : ∃ m, n = m + 1 := ⟨n - 1, by omega⟩
  rw [List.range'_succ, List.filter_cons]
  rw [if_pos (by simp [chainNode])]
  have h0 : List.filter ((fun (m : ModuleInfo) => m.hasUseClient) ∘
      chainNode (m + 1)) (List.range' 1 m) = [] := by
    rw [List.filter_eq_nil_iff]
    intro i hi
    have h1 : 1 ≤ i := (List.mem_range'_1.mp hi).1
    simp [chainNode, Function.comp]
    omega
  rw [h0]
  rfl

/-- Marking node `k + 1` of the partially marked chain. -/
theorem setClientTrue_markedChain (n k : Nat) :
    setClientTrue (markedChain n k) (pathN (k + 1)) = markedChain n (k + 1) := by
  unfold setClientTrue markedChain
  rw [List.map_map]
  refine List.map_congr_left ?_
  intro i _
  simp only [Function.comp_apply]
  by_cases hik : i = k + 1
  · subst hik
    rw [if_pos (beq_self_eq_true _)]
    simp only [ModuleInfo.mk.injEq, true_and, and_true]
    simp
  · have hcond : (pathN i == pathN (k + 1)) = false :=
      beq_eq_false_iff_ne.mpr (fun h => hik (pathN_inj h))
    rw [if_neg (by rw [hcond]; exact Bool.false_ne_true)]
    simp only [ModuleInfo.mk.injEq, true_and, and_true]
    exact decide_eq_decide.mpr (by omega)

/-- One full pass of the loop advances the marked frontier of the chain by
one node per iteration, until fuel or the chain runs out. -/
theorem chain_propLoop (n : Nat) :
    ∀ (fuel k : Nat), k < n →
      propLoop fuel (markedChain n k) [pathN k] =
        markedChain n (min (k + fuel) (n - 1)) := by
  intro fuel
  induction fuel with
  | zero =>
    intro k hk
    have h : min (k + 0) (n - 1) = k := by omega
    rw [h]
    rfl
  | succ f ih =>
    intro k hk
    have hbeq : (pathN k == "") = false :=
      beq_eq_false_iff_ne.mpr (pathN_ne_empty k)
    have hlook : graphGet (markedChain n k) (pathN k) =
        some ⟨pathN k, decide (k ≤ k), decide (k = 0),
          if k + 1 < n then [pathN (k + 1)] else []⟩ := by
      unfold markedChain
      exact graphGet_range'_map _ (fun i => rfl) n 0 k (Nat.zero_le k)
        (by omega)
    simp only [propLoop, hbeq, Bool.false_eq_true, if_neg,
      not_false_eq_true, hlook]
    by_cases hk1 : k + 1 < n
    · rw [if_pos hk1]
      have hlook2 : graphGet (markedChain n k) (pathN (k + 1)) =
          some ⟨pathN (k + 1), decide (k + 1 ≤ k), decide (k + 1 = 0),
            if k + 1 + 1 < n then [pathN (k + 1 + 1)] else []⟩ := by
        unfold markedChain
        exact graphGet_range'_map _ (fun i => rfl) n 0 (k + 1)
          (Nat.zero_le _) (by omega)
      have hcl : (decide (k + 1 ≤ k)) = false := by simp
      simp only [processImports, hlook2, hcl, Bool.false_eq_true, if_neg,
        not_false_eq_true]
      rw [setClientTrue_markedChain n k]
      rw [List.nil_append]
      rw [ih (k + 1) hk1]
      have h : min (k + 1 + f) (n - 1) = min (k + (f + 1)) (n - 1) := by
        omega
      rw [h]
    · rw [if_neg hk1]
      simp only [processImports]
      rw [List.nil_append, propLoop_nil]
      have h : min (k + (f + 1)) (n - 1) = k := by omega
      rw [h]

/-- Directive node 0 reaches every chain node downstream. -/
theorem chain_reaches (n : Nat) :
    ∀ (d i : Nat), i + d < n →
      Reaches (chainGraph n) (pathN i) (pathN (i + d)) := by
  intro d
  induction d with
  | zero =>
    intro i _
    exact Relation.ReflTransGen.refl
  | succ e ih =>
    intro i hi
    have h1 : Reaches (chainGraph n) (pathN i) (pathN (i + e)) :=
      ih i (by omega)
    refine h1.tail ⟨chainNode n (i + e), ?_, ?_⟩
    · unfold chainGraph
      exact graphGet_range'_map (chainNode n) (fun j => rfl) n 0 (i + e)
        (Nat.zero_le _) (by omega)
    · unfold chainNode
      rw [if_pos (show i + e + 1 < n by omega)]
      exact List.mem_singleton.mpr rfl

/-- C2 (counterexample): on the 10002-module import chain whose head alone
carries the directive, the head reaches the tail module along forward import
edges, yet after `propagateClientStatus` the tail module's `isClient` is
false — the `MAX_ITERATIONS` ceiling stops propagation after 10000
iterations, so the claimed reachability characterization fails on this
graph. -/
theorem C2_counterexample :
    (∃ s, s ∈ chainGraph 10002 ∧ s.hasUseClient = true ∧
      Reaches (chainGraph 10002) s.filePath (pathN 10001)) ∧
    (∃ m, graphGet (propagateClientStatus (chainGraph 10002))
      (pathN 10001) = some m ∧ m.isClient = false ∧
        m.hasUseClient = false) := by
  constructor
  · refine ⟨chainNode 10002 0, ?_, ?_, ?_⟩
    · unfold chainGraph
      exact List.mem_map.mpr ⟨0, List.mem_range'_1.mpr (by omega), rfl⟩
    · decide
    · have h := chain_reaches 10002 10001 0 (by omega)
      rw [Nat.zero_add] at h
      exact h
  · have h0 : propagateClientStatus (chainGraph 10002) =
        propLoop MAX_ITERATIONS (markedChain 10002 0) [pathN 0] := by
      unfold propagateClientStatus
      rw [resetChain, initQueue_chain 10002 (by omega)]
    have h1 : propLoop MAX_ITERATIONS (markedChain 10002 0) [pathN 0] =
        markedChain 10002 (min (0 + MAX_ITERATIONS) (10002 - 1)) :=
      chain_propLoop 10002 MAX_ITERATIONS 0 (by omega)
    have hmin : min (0 + MAX_ITERATIONS) (10002 - 1) = 10000 := by
      unfold MAX_ITERATIONS
      omega
    rw [h0, h1, hmin]
    have hlook : graphGet (markedChain 10002 10000) (pathN 10001) =
        some ⟨pathN 10001, decide (10001 ≤ 10000), decide (10001 = 0),
          if 10001 + 1 < 10002 then [pathN (10001 + 1)] else []⟩ := by
      unfold markedChain
      exact graphGet_range'_map _ (fun i => rfl) 10002 0 10001
        (Nat.zero_le _) (by omega)
    refine ⟨_, hlook, ?_, ?_⟩
    · decide
    · decide
